import Mathlib

/-!
Shallow embedding of the phrase-to-steno lookup core of
plover-websocket-server (src/plover_websocket_server/lookup.py):
the tokenizer, the phrase candidate resolver (get_steno_for_phrase),
the memoized recursive segmentation solver (solve) and the result ranker.

A chord is the string of key names of one simultaneous key press; a stroke
is the ordered list of chords of one dictionary entry.  The external engine
is modelled by its only two capabilities the solver uses: reverse lookup of
a phrase to the set (here: duplicate-free list) of strokes, and the scalar
longest_key.  Recursive functions that walk a shrinking suffix are written
with an explicit fuel argument (structural recursion) so that all
definitions evaluate inside the kernel; every wrapper supplies fuel larger
than the input length, which the lemmas show is enough.
-/

namespace Plover

/-- A chord: one simultaneous key combination, written as the string of its
key names; its key count is its length. -/
abbrev Chord := String

/-- A stroke: the ordered list of chords produced by one reverse lookup
entry (a Python tuple of strings in the source). -/
abbrev Stroke := List Chord

/-- The engine boundary: reverse lookup of a phrase to its strokes, and the
longest_key scalar read from the dictionary collection. -/
structure Dict where
  reverse_lookup : String → List Stroke
  longest_key : Nat

/-- One segment of a segmentation: the Python dict
with keys text and steno built in process_i. -/
structure Segment where
  text : String
  steno : Stroke
deriving DecidableEq

/-- sum(len(p) for p in s): total key count of a stroke. -/
def keyCountStroke (s : Stroke) : Nat := (s.map String.length).sum

/-- Python set.add: append the element if it is not yet present. -/
def sinsert (x : Stroke) (l : List Stroke) : List Stroke :=
  if x ∈ l then l else l ++ [x]

/-- Python set.union / set.update of the model lists. -/
def sunion (l₁ l₂ : List Stroke) : List Stroke :=
  l₂.foldl (fun acc x => sinsert x acc) l₁

/-- str.lower, written on the character list so it evaluates in the kernel. -/
def strLower (s : String) : String := String.mk (s.data.map Char.toLower)

/-- str.isalnum: nonempty and every character alphanumeric. -/
def isalnumStr (s : String) : Bool := !s.data.isEmpty && s.data.all Char.isAlphanum

/-- phrase.replace(",", "") followed by re.sub(r"[$,€£]", "", ·): strip
currency symbols and commas. -/
def stripNum (s : String) : String :=
  String.mk (s.data.filter (fun c => !(c == '$' || c == ',' || c == '€' || c == '£')))

/-- str.isdigit: nonempty and every character a digit. -/
def isdigitStr (s : String) : Bool := !s.data.isEmpty && s.data.all Char.isDigit

/-- min(·, key=len) on a nonempty list: the first element of minimal
length, as Python's min returns the first minimum in iteration order. -/
def minByLen (l : List Stroke) : Stroke :=
  match l with
  | [] => []
  | x :: xs => xs.foldl (fun b s => if s.length < b.length then s else b) x

/-- The per-digit loop of get_steno_for_phrase: for each digit character
look up its strokes; none if any digit has no stroke, otherwise the list of
the chosen (fewest-chord) stroke of each digit, in digit order. -/
def digitList (d : Dict) : List Char → Option (List Stroke)
  | [] => some []
  | c :: rest =>
    match d.reverse_lookup (String.mk [c]) with
    | [] => none
    | s :: ss =>
      match digitList d rest with
      | none => none
      | some ds => some (minByLen (s :: ss) :: ds)

/-- steno_capitalized: the exact-case matches, together with the command
form {c} for a single non-alphanumeric character. -/
def exactMatches (d : Dict) (phrase : String) : List Stroke :=
  if phrase.length == 1 && !(isalnumStr phrase) then
    sunion (d.reverse_lookup phrase) (d.reverse_lookup ("\x7b" ++ phrase ++ "\x7d"))
  else d.reverse_lookup phrase

/-- steno_lowercase_modified: strokes of the lowercase form with the KPA
capitalization chord prepended, when the phrase is not already lowercase. -/
def lowerMods (d : Dict) (phrase : String) : List Stroke :=
  if strLower phrase ≠ phrase then
    (d.reverse_lookup (strLower phrase)).map (fun s => "KPA" :: s)
  else []

/-- combined: exact matches, lowercase-derived matches, and the
digit-composed stroke when the stripped phrase is all digits. -/
def combinedOf (d : Dict) (phrase : String) : List Stroke :=
  let c0 := sunion (exactMatches d phrase) (lowerMods d phrase)
  if isdigitStr (stripNum phrase) then
    match digitList d (stripNum phrase).data with
    | some ds => sinsert ds.flatten c0
    | none => c0
  else c0

/-- The sort key of get_steno_for_phrase: (s not in steno_capitalized,
stroke count, total key count), with False < True modelled as 0 < 1. -/
def resKey (d : Dict) (phrase : String) (s : Stroke) : Nat × Nat × Nat :=
  (if s ∈ exactMatches d phrase then 0 else 1, s.length, keyCountStroke s)

/-- Lexicographic order on the triple sort keys. -/
def keyLeP (a b : Nat × Nat × Nat) : Prop :=
  a.1 < b.1 ∨ (a.1 = b.1 ∧ (a.2.1 < b.2.1 ∨ (a.2.1 = b.2.1 ∧ a.2.2 ≤ b.2.2)))

instance instDecKeyLeP (a b : Nat × Nat × Nat) : Decidable (keyLeP a b) := by
  unfold keyLeP
  exact inferInstance

/-- Insert x into l before the first element whose key x is ≤ to;
the insertion step of a stable sort. -/
def insKey (key : α → Nat × Nat × Nat) (x : α) : List α → List α
  | [] => [x]
  | y :: ys => if keyLeP (key x) (key y) then x :: y :: ys else y :: insKey key x ys

/-- Stable sort by key, the behaviour of Python's sorted(·, key=·). -/
def sortByKey (key : α → Nat × Nat × Nat) (l : List α) : List α :=
  l.foldr (insKey key) []

/-- get_steno_for_phrase: None when nothing matched, otherwise the combined
candidates sorted by (not exact match, stroke count, key count). -/
def get_steno_for_phrase (d : Dict) (phrase : String) : Option (List Stroke) :=
  if combinedOf d phrase = [] then none
  else some (sortByKey (resKey d phrase) (combinedOf d phrase))

/-- " ".join of a token list. -/
def joinSpace : List String → String
  | [] => ""
  | [w] => w
  | w :: ws => w ++ " " ++ joinSpace ws

/-- range(n, 0, -1): the list [n, n-1, ..., 1]. -/
def downFrom : Nat → List Nat
  | 0 => []
  | n + 1 => (n + 1) :: downFrom n

/-- Ordered concatenation of the per-element lists (the list comprehension
over i of the per-i solutions). -/
def catMap {α β : Type _} (f : α → List β) : List α → List β
  | [] => []
  | x :: xs => f x ++ catMap f xs

/-- The recursion of solve without the memo table (pure recomputation), on
explicit fuel.  For each prefix length i from min(len, longest_key) down to
1, if the prefix phrase resolves, prepend a segment carrying its top-ranked
stroke to every solution of the remaining suffix. -/
def solveF (d : Dict) : Nat → List String → List (List Segment)
  | 0, _ => []
  | fuel + 1, ws =>
    if ws = [] then [[]]
    else
      catMap (fun i =>
        match get_steno_for_phrase d (joinSpace (ws.take i)) with
        | some (o :: _) =>
          (solveF d fuel (ws.drop i)).map (fun sol => ⟨joinSpace (ws.take i), o⟩ :: sol)
        | _ => [])
        (downFrom (min ws.length d.longest_key))

/-- The memo-free solver at sufficient fuel. -/
def solve (d : Dict) (ws : List String) : List (List Segment) :=
  solveF d (ws.length + 1) ws

/-- The memo table: an association list keyed by the remaining suffix. -/
abbrev Memo := List (List String × List (List Segment))

/-- Lookup of a suffix in the memo table. -/
def findMemo (ws : List String) : Memo → Option (List (List Segment))
  | [] => none
  | (k, v) :: rest => if k = ws then some v else findMemo ws rest

/-- solve as written in the source: check the memo after the base case,
thread the memo through the loop over prefix lengths, and store the result
for the suffix before returning. -/
def solveMF (d : Dict) : Nat → List String → Memo → List (List Segment) × Memo
  | 0, _, memo => ([], memo)
  | fuel + 1, ws, memo =>
    if ws = [] then ([[]], memo)
    else
      match findMemo ws memo with
      | some v => (v, memo)
      | none =>
        let r := (downFrom (min ws.length d.longest_key)).foldl (fun acc i =>
            match get_steno_for_phrase d (joinSpace (ws.take i)) with
            | some (o :: _) =>
              let pr := solveMF d fuel (ws.drop i) acc.2
              (acc.1 ++ pr.1.map (fun sol => ⟨joinSpace (ws.take i), o⟩ :: sol), pr.2)
            | _ => acc)
          ([], memo)
        (r.1, (ws, r.1) :: r.2)

/-- A memo table is coherent when every stored entry is the memo-free
solution of its suffix key. -/
def MemoOK (d : Dict) (memo : Memo) : Prop :=
  ∀ k v, findMemo k memo = some v → v = solve d k

/-- The solver with the longest-key bound removed (L = remaining token
count), the variant the spec declares equivalent. -/
def solveUF (d : Dict) : Nat → List String → List (List Segment)
  | 0, _ => []
  | fuel + 1, ws =>
    if ws = [] then [[]]
    else
      catMap (fun i =>
        match get_steno_for_phrase d (joinSpace (ws.take i)) with
        | some (o :: _) =>
          (solveUF d fuel (ws.drop i)).map (fun sol => ⟨joinSpace (ws.take i), o⟩ :: sol)
        | _ => [])
        (downFrom ws.length)

/-- The unbounded solver at sufficient fuel. -/
def solveU (d : Dict) (ws : List String) : List (List Segment) :=
  solveUF d (ws.length + 1) ws

/-- Word characters of the tokenizer regex. -/
def isWordChar (c : Char) : Bool := c.isAlphanum || c == '_'

/-- The currency symbols of the tokenizer regex. -/
def isCurrencyChar (c : Char) : Bool := c == '$' || c == '€' || c == '£'

/-- The ASCII apostrophe. -/
def aposChar : Char := Char.ofNat 39

/-- The right single quotation mark. -/
def rAposChar : Char := Char.ofNat 8217

/-- Greedy scan of the tail of a number token: digits, and a comma only
when a digit follows it, matching the regex tail (comma groups). -/
def scanNum : List Char → List Char × List Char
  | [] => ([], [])
  | c :: rest =>
    if c.isDigit then
      let pr := scanNum rest
      (c :: pr.1, pr.2)
    else if c == ',' then
      match rest with
      | d :: rest2 =>
        if d.isDigit then
          let pr := scanNum rest2
          (c :: d :: pr.1, pr.2)
        else ([], c :: rest)
      | [] => ([], [c])
    else ([], c :: rest)

/-- Greedy scan of the tail of a word token: word characters, and an
apostrophe only when a word character follows it. -/
def scanWord : List Char → List Char × List Char
  | [] => ([], [])
  | c :: rest =>
    if isWordChar c then
      let pr := scanWord rest
      (c :: pr.1, pr.2)
    else if c == aposChar || c == rAposChar then
      match rest with
      | d :: rest2 =>
        if isWordChar d then
          let pr := scanWord rest2
          (c :: d :: pr.1, pr.2)
        else ([], c :: rest)
      | [] => ([], [c])
    else ([], c :: rest)

/-- re.findall of the token regex: at each position try, in the regex's
alternation order, a currency-led or bare number, a word (with internal
apostrophes), then any single non-word non-space character; whitespace is
skipped.  Fuel-indexed; one character is consumed before each call. -/
def findTokensF : Nat → List Char → List (List Char)
  | 0, _ => []
  | fuel + 1, cs =>
    match cs with
    | [] => []
    | c :: rest =>
      if isCurrencyChar c then
        match rest with
        | d :: rest2 =>
          if d.isDigit then
            let pr := scanNum rest2
            (c :: d :: pr.1) :: findTokensF fuel pr.2
          else [c] :: findTokensF fuel rest
        | [] => [[c]]
      else if c.isDigit then
        let pr := scanNum rest
        (c :: pr.1) :: findTokensF fuel pr.2
      else if isWordChar c then
        let pr := scanWord rest
        (c :: pr.1) :: findTokensF fuel pr.2
      else if c.isWhitespace then findTokensF fuel rest
      else [c] :: findTokensF fuel rest

/-- The tokenizer: re.findall(token_regex, text). -/
def tokenize (text : String) : List String :=
  (findTokensF (text.data.length + 1) text.data).map String.mk

/-- all_possible_sequences: the memoized solve of the token list, started
with an empty memo table. -/
def allSequences (d : Dict) (text : String) : List (List Segment) :=
  (solveMF d ((tokenize text).length + 1) (tokenize text) []).1

/-- Total number of strokes of a segmentation. -/
def strokeTotal (seq : List Segment) : Nat := (seq.map (fun it => it.steno.length)).sum

/-- Total number of keys pressed of a segmentation. -/
def keyTotal (seq : List Segment) : Nat := (seq.map (fun it => keyCountStroke it.steno)).sum

/-- The ranker's sort key (total strokes, total keys), padded to a triple. -/
def seqKey (seq : List Segment) : Nat × Nat × Nat := (strokeTotal seq, keyTotal seq, 0)

/-- lookup: tokenize, solve with a fresh memo, return [] when nothing was
found, otherwise the sequences sorted by overall efficiency. -/
def lookup (d : Dict) (text : String) : List (List Segment) :=
  if allSequences d text = [] then []
  else sortByKey seqKey (allSequences d text)

/-- Modelled from the spec: lookup with memoization disabled (pure
recomputation of every suffix), the variant §8 declares equivalent. -/
def lookupPure (d : Dict) (text : String) : List (List Segment) :=
  if solve d (tokenize text) = [] then []
  else sortByKey seqKey (solve d (tokenize text))

/-- Modelled from the spec: lookup with the longest-key bound replaced by
L = remaining token count (§4.3 step 1, §6). -/
def lookupU (d : Dict) (text : String) : List (List Segment) :=
  if solveU d (tokenize text) = [] then []
  else sortByKey seqKey (solveU d (tokenize text))

/-- A chunk the bounded solver can consume: nonempty, within the longest
key bound, and its phrase resolves. -/
def goodChunkB (d : Dict) (c : List String) : Prop :=
  c ≠ [] ∧ c.length ≤ d.longest_key ∧ get_steno_for_phrase d (joinSpace c) ≠ none

/-- A complete segmentation of the token list exists within the bound. -/
def CompletableB (d : Dict) (ws : List String) : Prop :=
  ∃ chunks : List (List String), chunks.flatten = ws ∧ ∀ c ∈ chunks, goodChunkB d c

/-- A chunk with a resolvable phrase, with no length bound (the spec's
notion of a Segment). -/
def goodChunkU (d : Dict) (c : List String) : Prop :=
  c ≠ [] ∧ get_steno_for_phrase d (joinSpace c) ≠ none

/-- A complete segmentation of the token list exists (spec notion). -/
def CompletableU (d : Dict) (ws : List String) : Prop :=
  ∃ chunks : List (List String), chunks.flatten = ws ∧ ∀ c ∈ chunks, goodChunkU d c

/-- An in-memory dictionary for concrete runs. -/
def assocLookup (entries : List (String × List Stroke)) (s : String) : List Stroke :=
  match entries with
  | [] => []
  | e :: rest => if e.1 = s then e.2 else assocLookup rest s

/-- Build a Dict from an association list and a longest_key scalar. -/
def mkDict (entries : List (String × List Stroke)) (lk : Nat) : Dict :=
  ⟨assocLookup entries, lk⟩

/-- Dictionary knowing only "cat". -/
def dCat : Dict := mkDict [("cat", [["K", "A", "T"]])] 1

/-- Dictionary knowing "cat" and "hat". -/
def dCatHat : Dict := mkDict [("cat", [["K", "A", "T"]]), ("hat", [["H", "A", "T"]])] 1

/-- Dictionary knowing the digits 1..5, and no entry for "15". -/
def d15 : Dict := mkDict
  [("1", [["1"]]), ("2", [["2"]]), ("3", [["3"]]), ("4", [["4"]]), ("5", [["5"]])] 1

/-- Dictionary with an exact entry for "12" and entries for its digits. -/
def d12 : Dict := mkDict [("12", [["TWELVE"]]), ("1", [["1"]]), ("2", [["2"]])] 1

/-- Dictionary with a one-stroke entry for the two-token phrase
"New York" and longest_key 1, as Plover's stroke-counted longest_key
allows. -/
def dNY : Dict := mkDict [("New York", [["NORBG"]])] 1

/-- The empty dictionary. -/
def dEmpty : Dict := mkDict [] 0

/-- Position of the first occurrence of a stroke in a candidate list. -/
def idxOf (x : Stroke) : List Stroke → Nat
  | [] => 0
  | y :: ys => if y = x then 0 else idxOf x ys + 1

/-! ### Lemmas about the triple key order and the stable sort -/

theorem keyLeP_refl (a : Nat × Nat × Nat) : keyLeP a a :=
  Or.inr ⟨rfl, Or.inr ⟨rfl, Nat.le_refl _⟩⟩

theorem keyLeP_total (a b : Nat × Nat × Nat) : keyLeP a b ∨ keyLeP b a := by
  obtain ⟨a1, a2, a3⟩ := a
  obtain ⟨b1, b2, b3⟩ := b
  simp only [keyLeP]
  omega

theorem keyLeP_trans {a b c : Nat × Nat × Nat} (h1 : keyLeP a b) (h2 : keyLeP b c) :
    keyLeP a c := by
  obtain ⟨a1, a2, a3⟩ := a
  obtain ⟨b1, b2, b3⟩ := b
  obtain ⟨c1, c2, c3⟩ := c
  simp only [keyLeP] at h1 h2 ⊢
  omega

theorem mem_insKey {α : Type _} (key : α → Nat × Nat × Nat) (x a : α) :
    ∀ l : List α, (a ∈ insKey key x l ↔ a = x ∨ a ∈ l)
  | [] => by simp [insKey]
  | y :: ys => by
    simp only [insKey]
    split
    · simp [List.mem_cons]
    · rw [List.mem_cons, List.mem_cons, mem_insKey key x a ys]
      tauto

theorem insKey_perm {α : Type _} (key : α → Nat × Nat × Nat) (x : α) :
    ∀ l : List α, List.Perm (insKey key x l) (x :: l)
  | [] => List.Perm.refl _
  | y :: ys => by
    simp only [insKey]
    split
    · exact List.Perm.refl _
    · exact ((insKey_perm key x ys).cons y).trans (List.Perm.swap x y ys)

theorem sortByKey_perm {α : Type _} (key : α → Nat × Nat × Nat) :
    ∀ l : List α, List.Perm (sortByKey key l) l
  | [] => List.Perm.refl _
  | x :: xs =>
    (insKey_perm key x (sortByKey key xs)).trans ((sortByKey_perm key xs).cons x)

theorem mem_sortByKey {α : Type _} (key : α → Nat × Nat × Nat) (l : List α) (a : α) :
    a ∈ sortByKey key l ↔ a ∈ l :=
  (sortByKey_perm key l).mem_iff

theorem sortByKey_eq_nil_iff {α : Type _} (key : α → Nat × Nat × Nat) (l : List α) :
    sortByKey key l = [] ↔ l = [] := by
  constructor
  · intro h
    have hp := sortByKey_perm key l
    rw [h] at hp
    exact hp.symm.eq_nil
  · intro h
    subst h
    rfl

theorem pairwise_insKey {α : Type _} (key : α → Nat × Nat × Nat) (x : α) :
    ∀ {l : List α}, List.Pairwise (fun a b => keyLeP (key a) (key b)) l →
      List.Pairwise (fun a b => keyLeP (key a) (key b)) (insKey key x l)
  | [], _ => by simp [insKey]
  | y :: ys, h => by
    rw [List.pairwise_cons] at h
    obtain ⟨h1, h2⟩ := h
    simp only [insKey]
    split
    · rename_i hxy
      rw [List.pairwise_cons]
      refine ⟨?_, List.pairwise_cons.2 ⟨h1, h2⟩⟩
      intro b hb
      rcases List.mem_cons.1 hb with hb | hb
      · exact hb ▸ hxy
      · exact keyLeP_trans hxy (h1 b hb)
    · rename_i hxy
      have hyx : keyLeP (key y) (key x) := (keyLeP_total _ _).resolve_left hxy
      rw [List.pairwise_cons]
      refine ⟨?_, pairwise_insKey key x h2⟩
      intro b hb
      rcases (mem_insKey key x b ys).1 hb with hb | hb
      · exact hb ▸ hyx
      · exact h1 b hb

theorem sortByKey_pairwise {α : Type _} (key : α → Nat × Nat × Nat) :
    ∀ l : List α, List.Pairwise (fun a b => keyLeP (key a) (key b)) (sortByKey key l)
  | [] => List.Pairwise.nil
  | x :: xs => pairwise_insKey key x (sortByKey_pairwise key xs)

theorem filter_insKey {α : Type _} (key : α → Nat × Nat × Nat) (k : Nat × Nat × Nat) (x : α) :
    ∀ m : List α,
      (insKey key x m).filter (fun y => decide (key y = k)) =
        ((x :: m).filter (fun y => decide (key y = k)))
  | [] => rfl
  | y :: ys => by
    simp only [insKey]
    split
    · rfl
    · rename_i hxy
      have ih := filter_insKey key k x ys
      have hnot : ¬(key x = k ∧ key y = k) := by
        rintro ⟨hkx, hky⟩
        exact hxy (hkx ▸ hky ▸ keyLeP_refl k)
      by_cases hky : key y = k <;> by_cases hkx : key x = k
      · exact absurd ⟨hkx, hky⟩ hnot
      · simp only [List.filter_cons, decide_eq_true_eq, ih, hky, hkx, eq_self_iff_true,
          if_true, if_false, ite_true, ite_false]
      · simp only [List.filter_cons, decide_eq_true_eq, ih, hky, hkx, eq_self_iff_true,
          if_true, if_false, ite_true, ite_false]
      · simp only [List.filter_cons, decide_eq_true_eq, ih, hky, hkx, eq_self_iff_true,
          if_true, if_false, ite_true, ite_false]

theorem sortByKey_filter {α : Type _} (key : α → Nat × Nat × Nat) (k : Nat × Nat × Nat) :
    ∀ l : List α,
      (sortByKey key l).filter (fun y => decide (key y = k)) =
        l.filter (fun y => decide (key y = k))
  | [] => rfl
  | x :: xs => by
    have h1 : sortByKey key (x :: xs) = insKey key x (sortByKey key xs) := rfl
    rw [h1, filter_insKey key k x (sortByKey key xs)]
    simp only [List.filter_cons]
    rw [sortByKey_filter key k xs]

/-! ### Lemmas about the candidate sets and the resolver -/

theorem mem_sinsert {a x : Stroke} {l : List Stroke} : a ∈ sinsert x l ↔ a = x ∨ a ∈ l := by
  by_cases h : x ∈ l
  · simp only [sinsert, if_pos h]
    exact ⟨Or.inr, fun h' => h'.elim (fun e => e ▸ h) id⟩
  · simp only [sinsert, if_neg h, List.mem_append, List.mem_singleton]
    tauto

theorem sinsert_ne_nil (x : Stroke) (l : List Stroke) : sinsert x l ≠ [] := by
  unfold sinsert
  split
  · exact List.ne_nil_of_mem (by assumption)
  · simp

theorem mem_sunion {a : Stroke} : ∀ (l₂ l₁ : List Stroke), a ∈ sunion l₁ l₂ ↔ a ∈ l₁ ∨ a ∈ l₂
  | [], l₁ => by simp [sunion]
  | x :: xs, l₁ => by
    have h := @mem_sunion a xs (sinsert x l₁)
    simp only [sunion, List.foldl_cons] at h ⊢
    rw [h, mem_sinsert, List.mem_cons]
    tauto

theorem gsfp_eq_some_iff {d : Dict} {p : String} {r : List Stroke} :
    get_steno_for_phrase d p = some r ↔
      combinedOf d p ≠ [] ∧ r = sortByKey (resKey d p) (combinedOf d p) := by
  unfold get_steno_for_phrase
  split
  · rename_i h
    simp [h]
  · rename_i h
    simp only [Option.some.injEq]
    exact ⟨fun he => ⟨h, he.symm⟩, fun he => he.2.symm⟩

theorem gsfp_some_ne_nil {d : Dict} {p : String} {r : List Stroke}
    (h : get_steno_for_phrase d p = some r) : r ≠ [] := by
  obtain ⟨hc, hr⟩ := gsfp_eq_some_iff.1 h
  rw [hr]
  intro he
  exact hc ((sortByKey_eq_nil_iff _ _).1 he)

theorem mem_gsfp {d : Dict} {p : String} {r : List Stroke} {x : Stroke}
    (h : get_steno_for_phrase d p = some r) : x ∈ r ↔ x ∈ combinedOf d p := by
  obtain ⟨_, hr⟩ := gsfp_eq_some_iff.1 h
  rw [hr]
  exact mem_sortByKey _ _ _

theorem gsfp_some_of_mem {d : Dict} {p : String} {x : Stroke}
    (h : x ∈ combinedOf d p) :
    ∃ r, get_steno_for_phrase d p = some r ∧ x ∈ r := by
  have hne : combinedOf d p ≠ [] := List.ne_nil_of_mem h
  refine ⟨sortByKey (resKey d p) (combinedOf d p), ?_, ?_⟩
  · exact gsfp_eq_some_iff.2 ⟨hne, rfl⟩
  · exact (mem_sortByKey _ _ _).2 h

theorem base_mem_combined {d : Dict} {p : String} {x : Stroke}
    (h : x ∈ sunion (exactMatches d p) (lowerMods d p)) : x ∈ combinedOf d p := by
  unfold combinedOf
  split
  · split
    · exact mem_sinsert.2 (Or.inr h)
    · exact h
  · exact h

theorem gsfp_sorted {d : Dict} {p : String} {r : List Stroke}
    (h : get_steno_for_phrase d p = some r) :
    List.Pairwise (fun a b => keyLeP (resKey d p a) (resKey d p b)) r := by
  obtain ⟨_, hr⟩ := gsfp_eq_some_iff.1 h
  rw [hr]
  exact sortByKey_pairwise _ _

/-! ### Lemmas about joinSpace -/

theorem joinSpace_cons (w : String) {ws : List String} (h : ws ≠ []) :
    joinSpace (w :: ws) = w ++ " " ++ joinSpace ws := by
  cases ws with
  | nil => exact absurd rfl h
  | cons y ys => rfl

theorem strApp_assoc (a b c : String) : a ++ b ++ c = a ++ (b ++ c) := by
  apply String.ext
  simp [String.data_append, List.append_assoc]

theorem joinSpace_append : ∀ (l₁ l₂ : List String), l₁ ≠ [] → l₂ ≠ [] →
    joinSpace (l₁ ++ l₂) = joinSpace l₁ ++ " " ++ joinSpace l₂
  | [], _, h, _ => absurd rfl h
  | [x], l₂, _, h₂ => by
    rw [List.singleton_append, joinSpace_cons x h₂]
    rfl
  | x :: y :: l₁, l₂, _, h₂ => by
    have ih := joinSpace_append (y :: l₁) l₂ (by simp) h₂
    rw [List.cons_append, joinSpace_cons x (by simp),
      @joinSpace_cons x (y :: l₁) (by simp), ih]
    simp only [strApp_assoc]

theorem flatten_ne_nil {chunks : List (List String)} {c : List String}
    (hc : c ∈ chunks) (hne : c ≠ []) : chunks.flatten ≠ [] := by
  intro h
  rw [List.flatten_eq_nil_iff] at h
  exact hne (h c hc)

theorem joinSpace_flatten : ∀ (chunks : List (List String)),
    (∀ c ∈ chunks, c ≠ []) →
    joinSpace (chunks.map joinSpace) = joinSpace chunks.flatten
  | [], _ => rfl
  | [c], _ => by simp [joinSpace]
  | c :: c' :: rest, h => by
    have hne : (c' :: rest).flatten ≠ [] :=
      flatten_ne_nil (List.mem_cons_self c' rest) (h c' (by simp))
    have ih := joinSpace_flatten (c' :: rest) (fun x hx => h x (List.mem_cons_of_mem c hx))
    have h1 : (c :: c' :: rest).flatten = c ++ (c' :: rest).flatten := rfl
    rw [List.map_cons, joinSpace_cons (joinSpace c) (by simp), ih, h1,
      joinSpace_append c (c' :: rest).flatten (h c (by simp)) hne]

/-! ### Lemmas about catMap and downFrom -/

theorem mem_catMap {α β : Type _} (f : α → List β) (b : β) :
    ∀ l : List α, (b ∈ catMap f l ↔ ∃ a ∈ l, b ∈ f a)
  | [] => by simp [catMap]
  | x :: xs => by
    simp only [catMap, List.mem_append, mem_catMap f b xs, List.mem_cons]
    constructor
    · rintro (h | ⟨a, ha, hb⟩)
      · exact ⟨x, Or.inl rfl, h⟩
      · exact ⟨a, Or.inr ha, hb⟩
    · rintro ⟨a, ha | ha, hb⟩
      · exact Or.inl (ha ▸ hb)
      · exact Or.inr ⟨a, ha, hb⟩

theorem catMap_congr {α β : Type _} {f g : α → List β} :
    ∀ {l : List α}, (∀ a ∈ l, f a = g a) → catMap f l = catMap g l
  | [], _ => rfl
  | x :: xs, h => by
    simp only [catMap]
    rw [h x (by simp), catMap_congr (fun a ha => h a (List.mem_cons_of_mem x ha))]

theorem catMap_ne_nil {α β : Type _} (f : α → List β) {l : List α} (a : α)
    (ha : a ∈ l) (hf : f a ≠ []) : catMap f l ≠ [] := by
  obtain ⟨b, hb⟩ := List.exists_mem_of_ne_nil _ hf
  exact List.ne_nil_of_mem ((mem_catMap f b l).2 ⟨a, ha, hb⟩)

theorem mem_downFrom (i : Nat) : ∀ n : Nat, (i ∈ downFrom n ↔ 1 ≤ i ∧ i ≤ n)
  | 0 => by
    simp [downFrom]
    omega
  | n + 1 => by
    rw [downFrom, List.mem_cons, mem_downFrom i n]
    omega

/-! ### Fuel irrelevance, soundness and completeness of the solver -/

theorem solveF_irrel (d : Dict) : ∀ (f₁ f₂ : Nat) (ws : List String),
    ws.length < f₁ → ws.length < f₂ → solveF d f₁ ws = solveF d f₂ ws
  | 0, _, _, h₁, _ => absurd h₁ (Nat.not_lt_zero _)
  | _ + 1, 0, _, _, h₂ => absurd h₂ (Nat.not_lt_zero _)
  | f₁ + 1, f₂ + 1, ws, h₁, h₂ => by
    by_cases hws : ws = []
    · subst hws
      rfl
    · simp only [solveF, if_neg hws]
      apply catMap_congr
      intro i hi
      obtain ⟨hi1, hi2⟩ := (mem_downFrom i _).1 hi
      have hlen : 0 < ws.length := List.length_pos.2 hws
      have hd : (ws.drop i).length < f₁ ∧ (ws.drop i).length < f₂ := by
        rw [List.length_drop]
        omega
      cases hg : get_steno_for_phrase d (joinSpace (ws.take i)) with
      | none => rfl
      | some opts =>
        cases opts with
        | nil => rfl
        | cons o os => rw [solveF_irrel d f₁ f₂ (ws.drop i) hd.1 hd.2]

theorem solveF_sound (d : Dict) : ∀ (fuel : Nat) (ws : List String) (sol : List Segment),
    sol ∈ solveF d fuel ws →
    ∃ chunks : List (List String), chunks.flatten = ws ∧
      (∀ c ∈ chunks, goodChunkB d c) ∧
      sol.map Segment.text = chunks.map joinSpace
  | 0, _, _, h => absurd h (by simp [solveF])
  | fuel + 1, ws, sol, h => by
    by_cases hws : ws = []
    · subst hws
      simp [solveF] at h
      subst h
      exact ⟨[], rfl, by simp, rfl⟩
    · simp only [solveF, if_neg hws] at h
      obtain ⟨i, hi, hbi⟩ := (mem_catMap _ _ _).1 h
      obtain ⟨hi1, hi2⟩ := (mem_downFrom i _).1 hi
      have hlen : 0 < ws.length := List.length_pos.2 hws
      cases hg : get_steno_for_phrase d (joinSpace (ws.take i)) with
      | none =>
        rw [hg] at hbi
        simp at hbi
      | some opts =>
        cases opts with
        | nil =>
          rw [hg] at hbi
          simp at hbi
        | cons o os =>
          rw [hg] at hbi
          simp only [List.mem_map] at hbi
          obtain ⟨sol', hsol', hcons⟩ := hbi
          obtain ⟨chunks', hflat, hgood, hmap⟩ := solveF_sound d fuel (ws.drop i) sol' hsol'
          refine ⟨ws.take i :: chunks', ?_, ?_, ?_⟩
          · rw [List.flatten_cons, hflat, List.take_append_drop]
          · intro c hc
            rcases List.mem_cons.1 hc with hcc | hcc
            · subst hcc
              refine ⟨?_, ?_, ?_⟩
              · apply List.length_pos.1
                rw [List.length_take]
                omega
              · rw [List.length_take]
                omega
              · rw [hg]
                simp
            · exact hgood c hcc
          · simp [← hcons, hmap]

theorem solveF_complete (d : Dict) : ∀ (chunks : List (List String)) (fuel : Nat) (ws : List String),
    ws.length < fuel → chunks.flatten = ws → (∀ c ∈ chunks, goodChunkB d c) →
    solveF d fuel ws ≠ []
  | [], fuel, ws, hf, hflat, _ => by
    have hws : ws = [] := hflat.symm
    subst hws
    cases fuel with
    | zero => exact absurd hf (by omega)
    | succ fuel => simp [solveF]
  | c :: rest, fuel, ws, hf, hflat, hgood => by
    obtain ⟨hc_ne, hc_le, hc_res⟩ := hgood c (by simp)
    have hws_ne : ws ≠ [] := by
      rw [← hflat, List.flatten_cons]
      intro h
      exact hc_ne (List.append_eq_nil.1 h).1
    cases fuel with
    | zero => exact absurd hf (by omega)
    | succ fuel =>
      have hlen : ws.length = c.length + rest.flatten.length := by
        rw [← hflat, List.flatten_cons, List.length_append]
      have hc_pos : 0 < c.length := List.length_pos.2 hc_ne
      have ht : ws.take c.length = c := by
        rw [← hflat, List.flatten_cons]
        exact List.take_left c rest.flatten
      have hd : ws.drop c.length = rest.flatten := by
        rw [← hflat, List.flatten_cons]
        exact List.drop_left c rest.flatten
      have hrec : solveF d fuel rest.flatten ≠ [] :=
        solveF_complete d rest fuel rest.flatten (by omega) rfl
          (fun x hx => hgood x (List.mem_cons_of_mem c hx))
      obtain ⟨r, hr⟩ := Option.ne_none_iff_exists'.1 hc_res
      have hmem : c.length ∈ downFrom (min ws.length d.longest_key) := by
        rw [mem_downFrom]
        omega
      simp only [solveF, if_neg hws_ne]
      apply catMap_ne_nil _ c.length hmem
      cases r with
      | nil => exact absurd (gsfp_some_ne_nil hr) (by simp)
      | cons o os =>
        rw [ht, hd, hr]
        simp only [ne_eq, List.map_eq_nil_iff]
        exact hrec

/-! ### The memoized solver computes the memo-free solutions -/

theorem memoOK_nil (d : Dict) : MemoOK d [] := by
  intro k v h
  simp [findMemo] at h

theorem solveMF_fold (d : Dict) (fuel : Nat) (ws : List String)
    (IH : ∀ (ws' : List String) (memo' : Memo), ws'.length < fuel → MemoOK d memo' →
      (solveMF d fuel ws' memo').1 = solveF d fuel ws' ∧ MemoOK d (solveMF d fuel ws' memo').2)
    (hfe : ws.length ≤ fuel) (hne : ws ≠ []) :
    ∀ (is : List Nat), (∀ i ∈ is, 1 ≤ i) → ∀ (acc : List (List Segment)) (memo : Memo),
      MemoOK d memo →
      ((is.foldl (fun acc i =>
          match get_steno_for_phrase d (joinSpace (ws.take i)) with
          | some (o :: _) =>
            (acc.1 ++ (solveMF d fuel (ws.drop i) acc.2).1.map
              (fun sol => ⟨joinSpace (ws.take i), o⟩ :: sol),
             (solveMF d fuel (ws.drop i) acc.2).2)
          | _ => acc) (acc, memo)).1
        = acc ++ catMap (fun i =>
            match get_steno_for_phrase d (joinSpace (ws.take i)) with
            | some (o :: _) =>
              (solveF d fuel (ws.drop i)).map (fun sol => ⟨joinSpace (ws.take i), o⟩ :: sol)
            | _ => []) is)
      ∧ MemoOK d ((is.foldl (fun acc i =>
          match get_steno_for_phrase d (joinSpace (ws.take i)) with
          | some (o :: _) =>
            (acc.1 ++ (solveMF d fuel (ws.drop i) acc.2).1.map
              (fun sol => ⟨joinSpace (ws.take i), o⟩ :: sol),
             (solveMF d fuel (ws.drop i) acc.2).2)
          | _ => acc) (acc, memo)).2)
  | [], _, acc, memo, hok => by
    refine ⟨?_, hok⟩
    simp [catMap]
  | i :: is, his, acc, memo, hok => by
    have hi1 : 1 ≤ i := his i (by simp)
    have hlen : 0 < ws.length := List.length_pos.2 hne
    have hdl : (ws.drop i).length < fuel := by
      rw [List.length_drop]
      omega
    simp only [List.foldl_cons, catMap]
    cases hg : get_steno_for_phrase d (joinSpace (ws.take i)) with
    | none =>
      simp only [hg]
      have hrec := solveMF_fold d fuel ws IH hfe hne is
        (fun j hj => his j (List.mem_cons_of_mem i hj)) acc memo hok
      refine ⟨?_, hrec.2⟩
      rw [hrec.1]
      simp
    | some opts =>
      cases opts with
      | nil =>
        simp only [hg]
        have hrec := solveMF_fold d fuel ws IH hfe hne is
          (fun j hj => his j (List.mem_cons_of_mem i hj)) acc memo hok
        refine ⟨?_, hrec.2⟩
        rw [hrec.1]
        simp
      | cons o os =>
        simp only [hg]
        obtain ⟨h1, h2⟩ := IH (ws.drop i) memo hdl hok
        have hrec := solveMF_fold d fuel ws IH hfe hne is
          (fun j hj => his j (List.mem_cons_of_mem i hj))
          (acc ++ (solveMF d fuel (ws.drop i) memo).1.map
            (fun sol => ⟨joinSpace (ws.take i), o⟩ :: sol))
          ((solveMF d fuel (ws.drop i) memo).2) h2
        refine ⟨?_, hrec.2⟩
        rw [hrec.1, h1, List.append_assoc]

theorem solveMF_eq (d : Dict) : ∀ (fuel : Nat) (ws : List String) (memo : Memo),
    ws.length < fuel → MemoOK d memo →
    (solveMF d fuel ws memo).1 = solveF d fuel ws ∧ MemoOK d (solveMF d fuel ws memo).2
  | 0, _, _, h, _ => absurd h (Nat.not_lt_zero _)
  | fuel + 1, ws, memo, hlt, hok => by
    by_cases hws : ws = []
    · subst hws
      exact ⟨rfl, hok⟩
    · cases hm : findMemo ws memo with
      | some v =>
        have hv := hok ws v hm
        have h1 : solveMF d (fuel + 1) ws memo = (v, memo) := by
          simp only [solveMF, if_neg hws, hm]
        rw [h1]
        refine ⟨?_, hok⟩
        rw [hv]
        exact solveF_irrel d (ws.length + 1) (fuel + 1) ws (by omega) hlt
      | none =>
        have hfold := solveMF_fold d fuel ws
          (fun ws' memo' hl hko => solveMF_eq d fuel ws' memo' hl hko) (by omega) hws
          (downFrom (min ws.length d.longest_key))
          (fun i hi => ((mem_downFrom i _).1 hi).1) [] memo hok
        have hdef : solveMF d (fuel + 1) ws memo =
            (((downFrom (min ws.length d.longest_key)).foldl (fun acc i =>
              match get_steno_for_phrase d (joinSpace (ws.take i)) with
              | some (o :: _) =>
                (acc.1 ++ (solveMF d fuel (ws.drop i) acc.2).1.map
                  (fun sol => ⟨joinSpace (ws.take i), o⟩ :: sol),
                 (solveMF d fuel (ws.drop i) acc.2).2)
              | _ => acc) ([], memo)).1,
            (ws, ((downFrom (min ws.length d.longest_key)).foldl (fun acc i =>
              match get_steno_for_phrase d (joinSpace (ws.take i)) with
              | some (o :: _) =>
                (acc.1 ++ (solveMF d fuel (ws.drop i) acc.2).1.map
                  (fun sol => ⟨joinSpace (ws.take i), o⟩ :: sol),
                 (solveMF d fuel (ws.drop i) acc.2).2)
              | _ => acc) ([], memo)).1) ::
            ((downFrom (min ws.length d.longest_key)).foldl (fun acc i =>
              match get_steno_for_phrase d (joinSpace (ws.take i)) with
              | some (o :: _) =>
                (acc.1 ++ (solveMF d fuel (ws.drop i) acc.2).1.map
                  (fun sol => ⟨joinSpace (ws.take i), o⟩ :: sol),
                 (solveMF d fuel (ws.drop i) acc.2).2)
              | _ => acc) ([], memo)).2) := by
          simp only [solveMF, if_neg hws, hm]
        have hsf : solveF d (fuel + 1) ws =
            catMap (fun i =>
              match get_steno_for_phrase d (joinSpace (ws.take i)) with
              | some (o :: _) =>
                (solveF d fuel (ws.drop i)).map (fun sol => ⟨joinSpace (ws.take i), o⟩ :: sol)
              | _ => []) (downFrom (min ws.length d.longest_key)) := by
          simp only [solveF, if_neg hws]
        rw [hdef]
        constructor
        · rw [hfold.1, hsf]
          simp
        · intro k v hkv
          simp only [findMemo] at hkv
          split at hkv
          · rename_i hwk
            subst hwk
            have hv2 := Option.some_injective _ hkv
            rw [← hv2, hfold.1, solve,
              solveF_irrel d (ws.length + 1) (fuel + 1) ws (by omega) hlt, hsf]
            simp
          · exact hfold.2 k v hkv

theorem allSequences_eq (d : Dict) (text : String) :
    allSequences d text = solve d (tokenize text) :=
  (solveMF_eq d ((tokenize text).length + 1) (tokenize text) [] (by omega) (memoOK_nil d)).1

theorem lookup_eq_pure (d : Dict) (text : String) : lookup d text = lookupPure d text := by
  unfold lookup lookupPure
  rw [allSequences_eq]

/-! ### The longest-key bound: when it is harmless -/

theorem catMap_downFrom {β : Type _} (f : Nat → List β) (m : Nat) :
    ∀ n : Nat, m ≤ n → (∀ i, m < i → i ≤ n → f i = []) →
    catMap f (downFrom n) = catMap f (downFrom m)
  | 0, hmn, _ => by
    have h0 : m = 0 := Nat.le_zero.1 hmn
    rw [h0]
  | n + 1, hmn, hz => by
    by_cases hm : m = n + 1
    · rw [hm]
    · have hle : m ≤ n := by omega
      have hrec := catMap_downFrom f m n hle (fun i h1 h2 => hz i h1 (by omega))
      simp only [downFrom, catMap]
      rw [hz (n + 1) (by omega) (by omega), hrec]
      simp

theorem solveF_eq_solveUF (d : Dict)
    (h : ∀ ws : List String, ws ≠ [] → d.longest_key < ws.length →
      get_steno_for_phrase d (joinSpace ws) = none) :
    ∀ (fuel : Nat) (ws : List String), solveF d fuel ws = solveUF d fuel ws
  | 0, _ => rfl
  | fuel + 1, ws => by
    by_cases hws : ws = []
    · subst hws
      rfl
    · have hlen : 0 < ws.length := List.length_pos.2 hws
      simp only [solveF, solveUF, if_neg hws]
      have h1 : catMap (fun i =>
          match get_steno_for_phrase d (joinSpace (ws.take i)) with
          | some (o :: _) =>
            (solveF d fuel (ws.drop i)).map (fun sol => ⟨joinSpace (ws.take i), o⟩ :: sol)
          | _ => []) (downFrom (min ws.length d.longest_key))
          = catMap (fun i =>
          match get_steno_for_phrase d (joinSpace (ws.take i)) with
          | some (o :: _) =>
            (solveF d fuel (ws.drop i)).map (fun sol => ⟨joinSpace (ws.take i), o⟩ :: sol)
          | _ => []) (downFrom ws.length) := by
        rcases Nat.le_total ws.length d.longest_key with hc | hc
        · rw [Nat.min_eq_left hc]
        · rw [Nat.min_eq_right hc]
          refine (catMap_downFrom _ d.longest_key ws.length hc (fun i hi1 hi2 => ?_)).symm
          have htn : ws.take i ≠ [] := by
            apply List.length_pos.1
            rw [List.length_take]
            omega
          have hnone : get_steno_for_phrase d (joinSpace (ws.take i)) = none := by
            apply h (ws.take i) htn
            rw [List.length_take]
            omega
          rw [hnone]
      rw [h1]
      apply catMap_congr
      intro i hi
      cases hg : get_steno_for_phrase d (joinSpace (ws.take i)) with
      | none => rfl
      | some opts =>
        cases opts with
        | nil => rfl
        | cons o os => rw [solveF_eq_solveUF d h fuel (ws.drop i)]

/-! ### The tokenizer on whitespace-only input -/

theorem white_not_special {c : Char} (h : c.isWhitespace = true) :
    isCurrencyChar c = false ∧ c.isDigit = false ∧ isWordChar c = false := by
  simp only [Char.isWhitespace, Bool.or_eq_true, decide_eq_true_eq] at h
  rcases h with ((h | h) | h) | h <;> subst h <;> exact ⟨rfl, rfl, rfl⟩

theorem findTokensF_white : ∀ (fuel : Nat) (cs : List Char),
    (∀ c ∈ cs, c.isWhitespace = true) → findTokensF fuel cs = []
  | 0, _, _ => rfl
  | _ + 1, [], _ => rfl
  | fuel + 1, c :: rest, h => by
    obtain ⟨h1, h2, h3⟩ := white_not_special (h c (by simp))
    simp only [findTokensF, h1, h2, h3, h c (by simp), Bool.false_eq_true, if_false, if_true]
    exact findTokensF_white fuel rest (fun x hx => h x (List.mem_cons_of_mem c hx))

theorem tokenize_white {s : String} (h : s.data.all Char.isWhitespace = true) :
    tokenize s = [] := by
  unfold tokenize
  rw [findTokensF_white _ _ (fun c hc => List.all_eq_true.1 h c hc)]
  rfl

/-! ### The digit-composition path and the empty dictionary -/

theorem digitList_some (d : Dict) : ∀ cs : List Char,
    (∀ c ∈ cs, d.reverse_lookup (String.mk [c]) ≠ []) →
    ∃ ds : List Stroke, digitList d cs = some ds
  | [], _ => ⟨[], rfl⟩
  | c :: rest, h => by
    obtain ⟨ds, hds⟩ := digitList_some d rest (fun x hx => h x (List.mem_cons_of_mem c hx))
    cases hl : d.reverse_lookup (String.mk [c]) with
    | nil => exact absurd hl (h c (by simp))
    | cons s ss =>
      refine ⟨minByLen (s :: ss) :: ds, ?_⟩
      simp only [digitList, hl, hds]

theorem gsfp_dEmpty (phrase : String) : get_steno_for_phrase dEmpty phrase = none := by
  have hex : exactMatches dEmpty phrase = [] := by
    unfold exactMatches
    split <;> rfl
  have hlow : lowerMods dEmpty phrase = [] := by
    unfold lowerMods
    split <;> rfl
  have hcomb : combinedOf dEmpty phrase = [] := by
    unfold combinedOf
    rw [hex, hlow]
    split
    · rename_i hdig
      cases hcs : (stripNum phrase).data with
      | nil => simp [isdigitStr, hcs] at hdig
      | cons c rest => rfl
    · rfl
  unfold get_steno_for_phrase
  rw [hcomb]
  rfl

/-! ### Positions in a sorted candidate list -/

theorem pairwise_idxOf_lt {R : Stroke → Stroke → Prop} :
    ∀ (l : List Stroke), List.Pairwise R l → ∀ (a b : Stroke), a ∈ l → b ∈ l → a ≠ b →
      ¬ R b a → idxOf a l < idxOf b l
  | [], _, a, _, ha, _, _, _ => absurd ha (List.not_mem_nil a)
  | x :: xs, hp, a, b, ha, hb, hne, hR => by
    rw [List.pairwise_cons] at hp
    obtain ⟨h1, h2⟩ := hp
    by_cases hxa : x = a
    · have hxb : x ≠ b := fun he => hne (hxa ▸ he)
      simp only [idxOf, if_pos hxa, if_neg hxb]
      omega
    · have hax : a ∈ xs := by
        rcases List.mem_cons.1 ha with haa | haa
        · exact absurd haa.symm hxa
        · exact haa
      by_cases hxb : x = b
      · subst hxb
        exact absurd (h1 a hax) hR
      · have hbx : b ∈ xs := by
          rcases List.mem_cons.1 hb with hbb | hbb
          · exact absurd hbb.symm hxb
          · exact hbb
        simp only [idxOf, if_neg hxa, if_neg hxb]
        exact Nat.succ_lt_succ (pairwise_idxOf_lt xs h2 a b hax hbx hne hR)

/-! ### Conversion of the segmentation sort key -/

theorem seqKey_le_iff (A B : List Segment) :
    keyLeP (seqKey A) (seqKey B) ↔
      (strokeTotal A < strokeTotal B ∨
        (strokeTotal A = strokeTotal B ∧ keyTotal A ≤ keyTotal B)) := by
  simp only [keyLeP, seqKey]
  omega

/-! ### The claims -/

/-- Claim C1: for every dictionary and input text, the list returned by
lookup is ascending in the lexicographic pair (total stroke count, total
chord-key count), and segmentations with equal key pairs keep the original
enumeration order of all_possible_sequences (the sort is stable). -/
theorem C1_ranking (d : Dict) (text : String) :
    List.Pairwise (fun A B => strokeTotal A < strokeTotal B ∨
      (strokeTotal A = strokeTotal B ∧ keyTotal A ≤ keyTotal B)) (lookup d text) ∧
    ∀ k : Nat × Nat,
      (lookup d text).filter (fun s => decide ((strokeTotal s, keyTotal s) = k)) =
        (allSequences d text).filter (fun s => decide ((strokeTotal s, keyTotal s) = k)) := by
  unfold lookup
  by_cases hall : allSequences d text = []
  · rw [if_pos hall, hall]
    exact ⟨List.Pairwise.nil, fun k => rfl⟩
  · rw [if_neg hall]
    constructor
    · exact (sortByKey_pairwise seqKey (allSequences d text)).imp
        (fun h => (seqKey_le_iff _ _).1 h)
    · intro k
      have hbr : ∀ l : List (List Segment),
          l.filter (fun s => decide ((strokeTotal s, keyTotal s) = k)) =
            l.filter (fun s => decide (seqKey s = (k.1, k.2, 0))) := by
        intro l
        apply List.filter_congr
        intro x _
        apply decide_eq_decide.2
        simp [seqKey, Prod.ext_iff]
      rw [hbr, hbr, sortByKey_filter]

/-- Claim C2: every returned segmentation's phrase texts, joined with
single spaces, reproduce the space-join of the tokenization exactly, and
those texts are the joins of a gap-free, overlap-free, order-preserving
partition of the token sequence into nonempty chunks. -/
theorem C2_reconstruction (d : Dict) (text : String) (sol : List Segment)
    (h : sol ∈ lookup d text) :
    joinSpace (sol.map Segment.text) = joinSpace (tokenize text) ∧
    ∃ chunks : List (List String), chunks.flatten = tokenize text ∧
      (∀ c ∈ chunks, c ≠ []) ∧ sol.map Segment.text = chunks.map joinSpace := by
  have hmem : sol ∈ solveF d ((tokenize text).length + 1) (tokenize text) := by
    unfold lookup at h
    by_cases hall : allSequences d text = []
    · rw [if_pos hall] at h
      exact absurd h (List.not_mem_nil sol)
    · rw [if_neg hall] at h
      have h2 := (mem_sortByKey _ _ _).1 h
      rw [allSequences_eq, solve] at h2
      exact h2
  obtain ⟨chunks, hflat, hgood, hmap⟩ := solveF_sound d _ _ sol hmem
  have hne : ∀ c ∈ chunks, c ≠ [] := fun c hc => (hgood c hc).1
  refine ⟨?_, chunks, hflat, hne, hmap⟩
  rw [hmap, joinSpace_flatten chunks hne, hflat]

/-- Witness for C2: the single segmentation of "cat" under the cat-only
dictionary reconstructs the tokenization. -/
theorem C2_reconstruction_witness :
    [(⟨"cat", ["K", "A", "T"]⟩ : Segment)] ∈ lookup dCat "cat" ∧
    joinSpace ([(⟨"cat", ["K", "A", "T"]⟩ : Segment)].map Segment.text) =
      joinSpace (tokenize "cat") :=
  ⟨by decide, (C2_reconstruction dCat "cat" [⟨"cat", ["K", "A", "T"]⟩] (by decide)).1⟩

/-- Claim C3 counterexample: longest_key counts strokes, not tokens, so a
dictionary can resolve a two-token phrase while longest_key = 1; there the
bounded solver misses the segmentation the unbounded solver finds, and the
two lookups differ. -/
theorem C3_counterexample : lookup dNY "New York" ≠ lookupU dNY "New York" := by
  decide

/-- Claim C3 (amended): if the resolver yields no match for any phrase of
more tokens than longest_key — i.e. the scalar really bounds the token
length of every resolvable phrase — then replacing the prefix-length bound
min(remaining, longest_key) by the unbounded remaining token count leaves
the returned list unchanged. -/
theorem C3_bound_amended (d : Dict)
    (h : ∀ ws : List String, ws ≠ [] → d.longest_key < ws.length →
      get_steno_for_phrase d (joinSpace ws) = none)
    (text : String) : lookup d text = lookupU d text := by
  have hs : solve d (tokenize text) = solveU d (tokenize text) :=
    solveF_eq_solveUF d h _ _
  rw [lookup_eq_pure]
  unfold lookupPure lookupU
  rw [hs]

/-- Witness for the amended C3 at the empty dictionary, whose resolver
never matches anything. -/
theorem C3_bound_amended_witness : lookup dEmpty "cat" = lookupU dEmpty "cat" :=
  C3_bound_amended dEmpty (fun ws _ _ => gsfp_dEmpty (joinSpace ws)) "cat"

/-- Claim C4: the solver with memoization disabled (pure recomputation)
returns exactly the same ordered list, and every entry the memoized run
stores for a token suffix is the memo-free solution of that suffix alone —
it never depends on the prefix through which the suffix was reached. -/
theorem C4_memo_equiv (d : Dict) (text : String) :
    lookupPure d text = lookup d text ∧
    ∀ k v, findMemo k ((solveMF d ((tokenize text).length + 1) (tokenize text) []).2) =
      some v → v = solve d k :=
  ⟨(lookup_eq_pure d text).symm,
    (solveMF_eq d ((tokenize text).length + 1) (tokenize text) [] (by omega) (memoOK_nil d)).2⟩

/-- Witness for C4: the entry the memoized run of "cat" stores for the
suffix ["cat"] is its memo-free solution. -/
theorem C4_memo_equiv_witness :
    [[(⟨"cat", ["K", "A", "T"]⟩ : Segment)]] = solve dCat ["cat"] :=
  (C4_memo_equiv dCat "cat").2 ["cat"] [[⟨"cat", ["K", "A", "T"]⟩]] (by decide)

/-- Claim C5: the resolver returns either none or a nonempty candidate
list sorted by the tuple (not an exact-case/command match, stroke count,
total key count); it never returns an empty list. -/
theorem C5_resolver_sorted (d : Dict) (phrase : String) (r : List Stroke)
    (h : get_steno_for_phrase d phrase = some r) :
    r ≠ [] ∧ List.Pairwise (fun a b => keyLeP (resKey d phrase a) (resKey d phrase b)) r :=
  ⟨gsfp_some_ne_nil h, gsfp_sorted h⟩

/-- Witness for C5 at the resolver run of "Cat" under the cat-only
dictionary. -/
theorem C5_resolver_sorted_witness :
    get_steno_for_phrase dCat "Cat" = some [["KPA", "K", "A", "T"]] ∧
    ([["KPA", "K", "A", "T"]] : List Stroke) ≠ [] :=
  ⟨by decide, (C5_resolver_sorted dCat "Cat" [["KPA", "K", "A", "T"]] (by decide)).1⟩

/-- Claim C6: if no complete segmentation of the token sequence exists then
lookup returns the empty list (the only failure signal — the embedding is
total, so no exception is possible); and whenever a segmentation within the
longest-key bound exists, the result is nonempty: a sub-phrase with no
match only prunes its own branch and never aborts the other branches. -/
theorem C6_failure (d : Dict) (text : String) :
    (¬ CompletableU d (tokenize text) → lookup d text = []) ∧
    (CompletableB d (tokenize text) → lookup d text ≠ []) := by
  have hall : allSequences d text = solve d (tokenize text) := allSequences_eq d text
  constructor
  · intro hnc
    unfold lookup
    rw [hall]
    have hsol : solve d (tokenize text) = [] := by
      by_contra hne
      obtain ⟨sol, hsol⟩ := List.exists_mem_of_ne_nil _ hne
      rw [solve] at hsol
      obtain ⟨chunks, hflat, hgood, _⟩ := solveF_sound d _ _ sol hsol
      exact hnc ⟨chunks, hflat, fun c hc => ⟨(hgood c hc).1, (hgood c hc).2.2⟩⟩
    rw [if_pos hsol]
  · intro hc
    obtain ⟨chunks, hflat, hgood⟩ := hc
    have hne : solve d (tokenize text) ≠ [] := by
      rw [solve]
      exact solveF_complete d chunks _ _ (by omega) hflat hgood
    unfold lookup
    rw [hall, if_neg hne]
    intro hcon
    exact hne ((sortByKey_eq_nil_iff _ _).1 hcon)

/-- Witness for C6: the empty dictionary fails with the empty list on
"cat"; the cat-hat dictionary succeeds on "cat hat". -/
theorem C6_failure_witness :
    lookup dEmpty "cat" = [] ∧ lookup dCatHat "cat hat" ≠ [] := by
  constructor
  · apply (C6_failure dEmpty "cat").1
    rintro ⟨chunks, hflat, hgood⟩
    cases chunks with
    | nil => exact absurd hflat (by decide)
    | cons c rest => exact (hgood c (by simp)).2 (gsfp_dEmpty (joinSpace c))
  · apply (C6_failure dCatHat "cat hat").2
    refine ⟨[["cat"], ["hat"]], by decide, ?_⟩
    intro c hc
    rcases List.mem_cons.1 hc with hcc | hcc
    · subst hcc
      exact ⟨by decide, by decide, by decide⟩
    · rcases List.mem_cons.1 hcc with hcc2 | hcc2
      · subst hcc2
        exact ⟨by decide, by decide, by decide⟩
      · exact absurd hcc2 (List.not_mem_nil c)

/-- Claim C7: for a phrase whose currency/comma-stripped form is all
digits, with every digit resolvable, the candidate list contains the
concatenation, in digit order, of the chosen (fewest-chord) per-digit
strokes; with digits 1..5 known and no direct "15" entry, "15" yields
exactly one segmentation using the digit-composed stroke. -/
theorem C7_digit_composition :
    (∀ (d : Dict) (phrase : String),
      isdigitStr (stripNum phrase) = true →
      (∀ c ∈ (stripNum phrase).data, d.reverse_lookup (String.mk [c]) ≠ []) →
      ∃ (ds : List Stroke) (r : List Stroke),
        digitList d (stripNum phrase).data = some ds ∧
        get_steno_for_phrase d phrase = some r ∧ ds.flatten ∈ r) ∧
    lookup d15 "15" = [[⟨"15", ["1", "5"]⟩]] := by
  constructor
  · intro d phrase hdig hall
    obtain ⟨ds, hds⟩ := digitList_some d (stripNum phrase).data hall
    have hmem : ds.flatten ∈ combinedOf d phrase := by
      unfold combinedOf
      simp only [hdig, hds, eq_self_iff_true, if_true, ite_true]
      exact mem_sinsert.2 (Or.inl rfl)
    obtain ⟨r, hr, hrm⟩ := gsfp_some_of_mem hmem
    exact ⟨ds, r, hds, hr, hrm⟩
  · decide

/-- Witness for C7 at the digits dictionary and the phrase "15". -/
theorem C7_digit_composition_witness :
    ∃ (ds : List Stroke) (r : List Stroke),
      digitList d15 (stripNum "15").data = some ds ∧
      get_steno_for_phrase d15 "15" = some r ∧ ds.flatten ∈ r :=
  C7_digit_composition.1 d15 "15" (by decide) (by decide)

/-- Claim C8: when the phrase differs from its lowercase form, every stroke
the dictionary has for the lowercase form yields the candidate with the
fixed KPA capitalization chord prepended; with only "cat" known, "Cat"
yields exactly the KPA-prefixed segmentation. -/
theorem C8_capitalization :
    (∀ (d : Dict) (phrase : String) (s : Stroke),
      strLower phrase ≠ phrase →
      s ∈ d.reverse_lookup (strLower phrase) →
      ∃ r : List Stroke, get_steno_for_phrase d phrase = some r ∧ ("KPA" :: s) ∈ r) ∧
    lookup dCat "Cat" = [[⟨"Cat", ["KPA", "K", "A", "T"]⟩]] := by
  constructor
  · intro d phrase s hlow hs
    have hmod : ("KPA" :: s) ∈ lowerMods d phrase := by
      unfold lowerMods
      rw [if_pos hlow]
      exact List.mem_map.2 ⟨s, hs, rfl⟩
    have hbase : ("KPA" :: s) ∈ sunion (exactMatches d phrase) (lowerMods d phrase) :=
      (mem_sunion _ _).2 (Or.inr hmod)
    exact gsfp_some_of_mem (base_mem_combined hbase)
  · decide

/-- Witness for C8 at the cat-only dictionary and the phrase "Cat". -/
theorem C8_capitalization_witness :
    ∃ r : List Stroke, get_steno_for_phrase dCat "Cat" = some r ∧
      ("KPA" :: ["K", "A", "T"]) ∈ r :=
  C8_capitalization.1 dCat "Cat" ["K", "A", "T"] (by decide) (by decide)

/-- Claim C9: the empty string and every whitespace-only string tokenize to
the empty token sequence, and lookup returns exactly one segmentation — the
empty sequence of segments — not an error and not the empty list. -/
theorem C9_empty_input (d : Dict) (s : String)
    (h : s.data.all Char.isWhitespace = true) :
    tokenize s = [] ∧ lookup d s = [[]] := by
  have ht := tokenize_white h
  refine ⟨ht, ?_⟩
  have hall : allSequences d s = [[]] := by
    unfold allSequences
    rw [ht]
    rfl
  unfold lookup
  rw [hall]
  rfl

/-- Witness for C9 at a whitespace-only string. -/
theorem C9_empty_input_witness : tokenize " " = [] ∧ lookup dEmpty " " = [[]] :=
  C9_empty_input dEmpty " " (by decide)

/-- Claim C10: in a resolver result, any candidate outside the exact-case/
command match set — the digit-composed stroke in particular — is placed
after every exact-case/command match, even when it has fewer strokes or
fewer keys, because the primary sort key tests only membership in the
exact-match set. -/
theorem C10_exact_before_derived (d : Dict) (phrase : String) (r : List Stroke)
    (a b : Stroke) (h : get_steno_for_phrase d phrase = some r)
    (ha : a ∈ r) (hb : b ∈ r)
    (hae : a ∈ exactMatches d phrase) (hbe : b ∉ exactMatches d phrase) :
    idxOf a r < idxOf b r := by
  have hne : a ≠ b := fun he => hbe (he ▸ hae)
  have hnR : ¬ keyLeP (resKey d phrase b) (resKey d phrase a) := by
    unfold resKey
    rw [if_pos hae, if_neg hbe]
    simp [keyLeP]
  exact pairwise_idxOf_lt r (gsfp_sorted h) a b ha hb hne hnR

/-- Witness for C10: under the dictionary knowing "12" exactly and its
digits, the exact match precedes the digit-composed stroke even though the
latter has fewer keys. -/
theorem C10_exact_before_derived_witness :
    idxOf (["TWELVE"] : Stroke) [["TWELVE"], ["1", "2"]] <
      idxOf (["1", "2"] : Stroke) [["TWELVE"], ["1", "2"]] :=
  C10_exact_before_derived d12 "12" [["TWELVE"], ["1", "2"]] ["TWELVE"] ["1", "2"]
    (by decide) (by decide) (by decide) (by decide) (by decide)

end Plover
